import Mathlib

/-!
Shallow embedding of the core of butler-runner (an execution agent that
drives terraform plan/apply/destroy for a remote control plane) and proofs
about it.  Go strings are embedded as `List Char`, byte contents as
`List Nat`, machine integers as `Int`/`Nat`.  External effects (the child
process, the network transport, the filesystem) enter the model as explicit
parameters describing their outcomes.

Embedded source locations:
- `internal/logstream` (`Writer`, `readLines`, `flush`, `Close`)
- `internal/terraform/executor.go` (`Run`, `plan`, `apply`, `destroy`,
  `parseResourceCounts`, `parseSummaryCounts`, `SecureDelete`)
- `internal/cancel` (`Watcher.Start`, `Watcher.isCancelled`)
- `internal/runner/runner.go` (`RunManaged` reporting and deferred cleanup)
-/

set_option maxRecDepth 4000

/-! ## Telemetry Sink: `logstream.Writer` -/

/-- One line of captured output, as in `callback.LogEntry`
(fields `Sequence`, `Stream`, `Content`). -/
structure LogEntry where
  sequence : Nat
  stream : List Char
  content : List Char
deriving DecidableEq, Repr

/-- The mutable state of a `logstream.Writer` that the sequence/buffer
claims are about: the `seq` counter and the in-memory `buf` of entries.
`NewWriter` initialises `seq` to `startSeq` and `buf` to empty. -/
structure WState where
  seq : Nat
  buf : List LogEntry
deriving DecidableEq, Repr

/-- `NewWriter`'s initial state for a given starting sequence number. -/
def newWriter (startSeq : Nat) : WState :=
  { seq := startSeq, buf := [] }

/-- `Writer.Sequence`: returns the current sequence number. -/
def WState.sequenceOf (w : WState) : Nat := w.seq

/-- One iteration of `Writer.readLines` observing one complete line:
`w.seq++` and append an entry carrying the incremented sequence. -/
def observeLine (stream : List Char) (w : WState) (content : List Char) : WState :=
  { seq := w.seq + 1,
    buf := w.buf ++ [{ sequence := w.seq + 1, stream := stream, content := content }] }

/-- The entries `readLines` appends for a list of observed lines, starting
from sequence counter `s`: sequences `s+1, s+2, ...` in observation order. -/
def mkEntries (stream : List Char) : Nat → List (List Char) → List LogEntry
  | _, [] => []
  | s, l :: ls => { sequence := s + 1, stream := stream, content := l } :: mkEntries stream (s + 1) ls

/-- Feed a list of lines to a writer in order (folding `readLines` steps). -/
def feedLines (stream : List Char) (w : WState) (lines : List (List Char)) : WState :=
  lines.foldl (observeLine stream) w

/-- Stream tag "stdout". -/
def stdoutTag : List Char := "stdout".data

/-- Stream tag "stderr". -/
def stderrTag : List Char := "stderr".data

/-- A two-sink interleaving: each event sends one line to sink 1 (`true`)
or sink 2 (`false`); returns the sequence numbers in assignment order. -/
def mergedAssign : WState → WState → List (Bool × List Char) → List Nat
  | _, _, [] => []
  | w1, w2, (true, c) :: rest =>
      (w1.seq + 1) :: mergedAssign (observeLine stdoutTag w1 c) w2 rest
  | w1, w2, (false, c) :: rest =>
      (w2.seq + 1) :: mergedAssign w1 (observeLine stderrTag w2 c) rest

/-- `Writer.flush` line truncation: content longer than 4096 is cut to 4096
and the marker is appended. -/
def truncEntry (e : LogEntry) : LogEntry :=
  if 4096 < e.content.length then
    { e with content := e.content.take 4096 ++ "... (truncated)".data }
  else e

/-- Chunking loop of `Writer.flush` (`for i := 0; i < len(batch); i += 100`):
fuel-indexed structural recursion; `chunks100` supplies adequate fuel. -/
def chunksF : Nat → List LogEntry → List (List LogEntry)
  | 0, _ => []
  | _ + 1, [] => []
  | f + 1, l => l.take 100 :: chunksF f (l.drop 100)

/-- Split a batch into consecutive chunks of at most 100 entries. -/
def chunks100 (l : List LogEntry) : List (List LogEntry) :=
  chunksF l.length l

/-- The transport calls one `Writer.flush` performs on a given buffer:
empty buffer returns early with no calls; otherwise the buffer is swapped
out, truncated, and sent in chunks of at most 100 entries. -/
def flushCalls (buf : List LogEntry) : List (List LogEntry) :=
  if buf = [] then [] else chunks100 (buf.map truncEntry)

/-- `Writer.flush` on the writer state: empties the buffer and yields the
chunk list handed to `cb.SendLogs`. -/
def WState.flushM (w : WState) : WState × List (List LogEntry) :=
  ({ w with buf := [] }, flushCalls w.buf)

/-- `Writer.Close` after the line reader has terminated (its sequential
effect): stop the ticker, then one final `flush` of the remaining buffer. -/
def WState.closeM (w : WState) : WState × List (List LogEntry) :=
  w.flushM

/-- The chunk-send loop with a transport-failure oracle `fail` (chunk index
→ whether `cb.SendLogs` errors).  A failed chunk is logged and the loop
continues; the call list records every attempt in order. -/
def sendChunks (fail : Nat → Bool) : Nat → List (List LogEntry) → List (List LogEntry × Bool)
  | _, [] => []
  | i, c :: cs => (c, !fail i) :: sendChunks fail (i + 1) cs

/-! ## Process Executor: `terraform/executor.go` -/

/-- `RunResult` from `executor.go`.  `planJSON` embeds the `PlanJSON`
string field at the JSON level: `none` is the empty string, `some none` a
non-empty string that `json.Unmarshal` rejects, `some (some doc)` a
non-empty string decoding to the listed `resource_changes` action lists. -/
structure RunResult where
  exitCode : Int := 0
  resourcesToAdd : Nat := 0
  resourcesToChange : Nat := 0
  resourcesToDestroy : Nat := 0
  planJSON : Option (Option (List (List (List Char)))) := none
  planText : List Char := []
  outputs : Option (List (List Char × List Char)) := none
deriving DecidableEq, Repr

/-- `strings.Join(parts, sep)` over embedded strings. -/
def goJoin (sep : List Char) : List (List Char) → List Char
  | [] => []
  | [x] => x
  | x :: y :: rest => x ++ sep ++ goJoin sep (y :: rest)

/-- Does `pat` occur at the head of the text (prefix match)? -/
def leadMatch : List Char → List Char → Bool
  | [], _ => true
  | _ :: _, [] => false
  | p :: ps, c :: cs => p == c && leadMatch ps cs

/-- Does `pat` occur anywhere in the text? -/
def subMatch (pat : List Char) : List Char → Bool
  | [] => leadMatch pat []
  | c :: cs => leadMatch pat (c :: cs) || subMatch pat cs

/-- `strings.Contains(s, substr)`. -/
def goContains (s pat : List Char) : Bool := subMatch pat s

/-- One iteration of the loop in `Executor.parseResourceCounts`: join the
change's action list with commas and dispatch on the Go `switch`. -/
def countStep (r : RunResult) (acts : List (List Char)) : RunResult :=
  let a := goJoin [','] acts
  if a = "create".data then
    { r with resourcesToAdd := r.resourcesToAdd + 1 }
  else if a = "update".data then
    { r with resourcesToChange := r.resourcesToChange + 1 }
  else if a = "delete".data then
    { r with resourcesToDestroy := r.resourcesToDestroy + 1 }
  else if goContains a ("create".data) && goContains a ("delete".data) then
    { r with resourcesToDestroy := r.resourcesToDestroy + 1,
             resourcesToAdd := r.resourcesToAdd + 1 }
  else r

/-- The loop body of `Executor.parseResourceCounts` over the decoded
`resource_changes` of the plan document. -/
def countChanges (doc : List (List (List Char))) (r : RunResult) : RunResult :=
  doc.foldl countStep r

/-- `Executor.parseResourceCounts`: returns unchanged on empty `PlanJSON`
or on a `json.Unmarshal` error, otherwise folds `countStep` over the
decoded resource changes. -/
def parseResourceCounts (r : RunResult) : RunResult :=
  match r.planJSON with
  | none => r
  | some none => r
  | some (some doc) => countChanges doc r

/-! ### `parseSummaryCounts`: the regex `(\d+) (added|changed|destroyed)` -/

/-- The capture-group alternatives of the summary regex. -/
inductive SKind where
  | added
  | changed
  | destroyed
deriving DecidableEq, Repr

/-- The literal characters of each keyword alternative. -/
def kwChars : SKind → List Char
  | .added => "added".data
  | .changed => "changed".data
  | .destroyed => "destroyed".data

/-- Numeric value of a decimal digit character (`strconv.Atoi` step). -/
def digitVal (c : Char) : Nat := c.toNat - 48

/-- Greedy `\d+`: consume the maximal run of digits, accumulating the
decimal value, and return the remaining text. -/
def grabDigits : Nat → List Char → Nat × List Char
  | acc, [] => (acc, [])
  | acc, c :: cs =>
    if c.isDigit then grabDigits (acc * 10 + digitVal c) cs else (acc, c :: cs)

/-- Strip a literal pattern from the head of the text, or fail. -/
def stripLead : List Char → List Char → Option (List Char)
  | [], s => some s
  | _ :: _, [] => none
  | p :: ps, c :: cs => if p == c then stripLead ps cs else none

/-- Try to match `(\d+) (added|changed|destroyed)` at the current position:
a non-empty digit run, a space, then the first alternative that fits
(their first letters are distinct).  Backtracking inside `\d+` can never
help here: shortening the greedy digit run leaves a digit where the space
is required. -/
def tryMatch (s : List Char) : Option (Nat × SKind × List Char) :=
  match s with
  | [] => none
  | c :: _ =>
    if c.isDigit then
      let g := grabDigits 0 s
      match g.2 with
      | c2 :: r2 =>
        if c2 = ' ' then
          match stripLead ("added".data) r2 with
          | some r3 => some (g.1, .added, r3)
          | none =>
            match stripLead ("changed".data) r2 with
            | some r3 => some (g.1, .changed, r3)
            | none =>
              match stripLead ("destroyed".data) r2 with
              | some r3 => some (g.1, .destroyed, r3)
              | none => none
        else none
      | [] => none
    else none

/-- Leftmost non-overlapping scan, as `FindAllStringSubmatch` performs it:
on a match, continue after the matched text; otherwise advance one
character.  Fuel-indexed; one unit of fuel per step suffices since a match
consumes at least one character. -/
def scanF : Nat → List Char → List (Nat × SKind)
  | 0, _ => []
  | _ + 1, [] => []
  | f + 1, c :: cs =>
    match tryMatch (c :: cs) with
    | some (n, k, rest) => (n, k) :: scanF f rest
    | none => scanF f cs

/-- All matches of the summary regex in the text, leftmost first. -/
def scanAll (s : List Char) : List (Nat × SKind) :=
  scanF s.length s

/-- `parseSummaryCounts`: for each match in order, assign the captured
number to the counter named by the keyword (a later match overwrites an
earlier one for the same keyword). -/
def parseSummaryCounts (output : List Char) (r : RunResult) : RunResult :=
  (scanAll output).foldl
    (fun r m =>
      match m.2 with
      | .added => { r with resourcesToAdd := m.1 }
      | .changed => { r with resourcesToChange := m.1 }
      | .destroyed => { r with resourcesToDestroy := m.1 })
    r

/-- Decimal rendering of a natural number, fuel-indexed
(fuel `n + 1` is always adequate). -/
def natDigitsF : Nat → Nat → List Char
  | 0, _ => []
  | f + 1, n =>
    if n < 10 then [Char.ofNat (48 + n)]
    else natDigitsF f (n / 10) ++ [Char.ofNat (48 + n % 10)]

/-- Decimal digit string of a natural number. -/
def natDigits (n : Nat) : List Char := natDigitsF (n + 1) n

/-- The summary fragment `"<n> added, <m> changed, <k> destroyed."` as
terraform prints it. -/
def summaryTriple (n m k : Nat) : List Char :=
  natDigits n ++ " added, ".data ++ natDigits m ++ " changed, ".data ++
    natDigits k ++ " destroyed.".data

/-- A full apply summary line
`"Apply complete! Resources: <n> added, <m> changed, <k> destroyed."`. -/
def applyLine (n m k : Nat) : List Char :=
  "Apply complete! Resources: ".data ++ summaryTriple n m k

/-! ### `Executor.plan` / `apply` / `destroy` / `Run` -/

/-- Outcome of `cmd.Run()` for the child process: clean exit, an
`exec.ExitError` with the given exit code, or a non-`ExitError` failure
(e.g. the binary could not be started). -/
inductive CmdOutcome where
  | ok
  | exitErr (code : Int)
  | startFail
deriving DecidableEq, Repr

/-- The Go error value positions the model distinguishes. -/
inductive GoErr where
  | subprocessErr
  | startErr
  | unsupportedOp
deriving DecidableEq, Repr

/-- External-world inputs of one `Executor.plan` call: the subprocess
outcome, its captured stdout/stderr, whether `os.Stat` finds the plan
artifact, and the outcome of the secondary `show -json` invocation
(`none` = the show command failed; `some pj` = its output became
`PlanJSON`, with `pj` as in `RunResult.planJSON`). -/
structure PlanEnv where
  cmdOutcome : CmdOutcome
  stdoutText : List Char
  stderrText : List Char
  planFileStat : Bool
  showResult : Option (Option (List (List (List Char))))
deriving Repr

/-- `Executor.plan`: exit code 2 is downgraded to success; the plan JSON
and resource counts are filled in best-effort; the result is returned even
on error. -/
def planModel (env : PlanEnv) : RunResult × Option GoErr :=
  let ec : Int × Option GoErr :=
    match env.cmdOutcome with
    | .ok => (0, none)
    | .exitErr c => if c = 2 then (2, none) else (c, some .subprocessErr)
    | .startFail => (0, some .startErr)
  let r0 : RunResult := { exitCode := ec.1, planText := env.stdoutText }
  let r1 : RunResult :=
    if env.planFileStat then
      match env.showResult with
      | some pj => parseResourceCounts { r0 with planJSON := some pj }
      | none => r0
    else r0
  (r1, ec.2)

/-- External-world inputs of one `Executor.apply` call; `outputResult` is
the decoded `output -json` map when that secondary call and its JSON
decode both succeed. -/
structure ApplyEnv where
  cmdOutcome : CmdOutcome
  stdoutText : List Char
  stderrText : List Char
  outputResult : Option (List (List Char × List Char))
deriving Repr

/-- `Executor.apply`: any non-zero exit is a failure; summary counts are
parsed from stdout; outputs are retrieved best-effort. -/
def applyModel (env : ApplyEnv) : RunResult × Option GoErr :=
  let ec : Int × Option GoErr :=
    match env.cmdOutcome with
    | .ok => (0, none)
    | .exitErr c => (c, some .subprocessErr)
    | .startFail => (0, some .startErr)
  let r0 : RunResult := { exitCode := ec.1 }
  let r1 := parseSummaryCounts env.stdoutText r0
  let r2 : RunResult :=
    match env.outputResult with
    | some o => { r1 with outputs := some o }
    | none => r1
  (r2, ec.2)

/-- External-world inputs of one `Executor.destroy` call. -/
structure DestroyEnv where
  cmdOutcome : CmdOutcome
  stdoutText : List Char
  stderrText : List Char
deriving Repr

/-- `Executor.destroy`: like apply but with no outputs retrieval. -/
def destroyModel (env : DestroyEnv) : RunResult × Option GoErr :=
  let ec : Int × Option GoErr :=
    match env.cmdOutcome with
    | .ok => (0, none)
    | .exitErr c => (c, some .subprocessErr)
    | .startFail => (0, some .startErr)
  let r0 : RunResult := { exitCode := ec.1 }
  let r1 := parseSummaryCounts env.stdoutText r0
  (r1, ec.2)

/-- The external-world inputs `Executor.Run` may consult, per operation. -/
structure ExecEnv where
  planEnv : PlanEnv
  applyEnv : ApplyEnv
  destroyEnv : DestroyEnv
deriving Repr

/-- `Executor.Run`: dispatch on the operation string; an unsupported
operation returns a nil result and an error. -/
def runExec (operation : String) (env : ExecEnv) : Option RunResult × Option GoErr :=
  if operation = "plan" then
    let p := planModel env.planEnv
    (some p.1, p.2)
  else if operation = "apply" then
    let p := applyModel env.applyEnv
    (some p.1, p.2)
  else if operation = "destroy" then
    let p := destroyModel env.destroyEnv
    (some p.1, p.2)
  else (none, some .unsupportedOp)

/-- The status report `RunManaged` issues right after `exec.Run` returns
(runner.go lines 120–151): on error, `failed` with the result's exit code
(1 when the result is nil — though the code then dereferences the nil
result, modelled as `none`); on success, `succeeded` with the result's
exit code. -/
def statusAfterRun : Option RunResult × Option GoErr → Option (String × Int)
  | (some r, none) => some ("succeeded", r.exitCode)
  | (some r, some _) => some ("failed", r.exitCode)
  | (none, _) => none

/-! ## `SecureDelete` and a small filesystem model -/

/-- A flat filesystem: association list from path to byte content. -/
abbrev FSys : Type := List (List Char × List Nat)

/-- Content of a path, if the file exists. -/
def lookupFS (fs : FSys) (p : List Char) : Option (List Nat) :=
  match fs with
  | [] => none
  | e :: rest => if e.1 = p then some e.2 else lookupFS rest p

/-- `os.Stat`: the file's size, or failure when it does not exist. -/
def statFS (fs : FSys) (p : List Char) : Option Nat :=
  (lookupFS fs p).map List.length

/-- `os.WriteFile`: replace (or create) the file's content. -/
def writeFS (fs : FSys) (p : List Char) (data : List Nat) : FSys :=
  (p, data) :: List.filter (fun e => decide (e.1 ≠ p)) fs

/-- `os.Remove`: drop the file. -/
def removeFS (fs : FSys) (p : List Char) : FSys :=
  List.filter (fun e => decide (e.1 ≠ p)) fs

/-- `SecureDelete`: stat failure means no action; otherwise overwrite with
that many zero bytes, then remove. -/
def secureDelete (fs : FSys) (p : List Char) : FSys :=
  match statFS fs p with
  | none => fs
  | some sz => removeFS (writeFS fs p (List.replicate sz 0)) p

/-- The intermediate filesystem states `SecureDelete` passes through on an
existing file: after the zero overwrite, then after the removal. -/
def secureDeleteTrace (fs : FSys) (p : List Char) : List FSys :=
  match statFS fs p with
  | none => []
  | some sz =>
    let mid := writeFS fs p (List.replicate sz 0)
    [mid, removeFS mid p]

/-! ## Cancellation Watcher: `cancel/watcher.go` -/

/-- Outcome of one status query inside `Watcher.isCancelled`:
`http.NewRequestWithContext` failure, transport failure, JSON decode
failure, or a decoded status string. -/
inductive QueryOutcome where
  | reqErr
  | netErr
  | decodeErr
  | okStatus (status : String)
deriving DecidableEq, Repr

/-- `Watcher.isCancelled`: every error path returns false; otherwise the
decoded status is compared with "cancelled". -/
def isCancelledM : QueryOutcome → Bool
  | .reqErr => false
  | .netErr => false
  | .decodeErr => false
  | .okStatus s => s = "cancelled"

/-- One event the `select` in `Watcher.Start` can wake on: the surrounding
context ending, or a ticker tick whose status query has the given
outcome. -/
inductive WEvent where
  | ctxDone
  | tick (q : QueryOutcome)
deriving Repr

/-- `Watcher.Start` over a schedule of wake-ups: returns how many times
`cancelFunc` was fired and how many polls were issued before the loop
returned.  `ctxDone` returns immediately; a cancelled poll fires once and
returns; any other poll continues the loop. -/
def watcherRun : List WEvent → Nat × Nat
  | [] => (0, 0)
  | .ctxDone :: _ => (0, 0)
  | .tick q :: rest =>
    if isCancelledM q then (1, 1)
    else ((watcherRun rest).1, (watcherRun rest).2 + 1)

/-- An event that does not report cancellation: a tick whose query outcome
is not "cancelled" (errors included). -/
def nonCancelTick (e : WEvent) : Prop :=
  ∃ q, e = WEvent.tick q ∧ isCancelledM q = false

/-! ## Run Orchestrator: deferred cleanup in `RunManaged` -/

/-- The deferred cleanup actions `RunManaged` has registered by the time
the Telemetry Sinks exist (runner.go lines 63, 82, 94, 98, 105, 106), in
registration order. -/
inductive Cleanup where
  | removeWorkTree
  | unsetEnvVars
  | secureDeleteTfvars
  | cancelWatcherCtx
  | closeStderrSink
  | closeStdoutSink
deriving DecidableEq, Repr

/-- Registration order of the deferred calls in `RunManaged`. -/
def deferredInOrder : List Cleanup :=
  [.removeWorkTree, .unsetEnvVars, .secureDeleteTfvars, .cancelWatcherCtx,
   .closeStderrSink, .closeStdoutSink]

/-- The exit paths of `RunManaged` reachable after both sinks exist:
`terraform init` fails, `exec.Run` fails, or the run succeeds. -/
inductive ExitPath where
  | initFailed
  | runFailed
  | success
deriving DecidableEq, Repr

/-- The cleanup sequence actually executed on each such exit path: Go runs
deferred calls in LIFO order, and the same defer stack is live on all
three paths. -/
def runManagedCleanup : ExitPath → List Cleanup :=
  fun _ => deferredInOrder.reverse

/-! ## `RunManaged` tail: best-effort status and outputs reporting -/

/-- Observable events of the reporting tail of a successful `RunManaged`
(runner.go lines 149–165). -/
inductive TailEvent where
  | statusReported
  | statusFailureLogged
  | outputsReported
  | outputsFailureLogged
  | completionLogged
deriving DecidableEq, Repr

/-- The success tail of `RunManaged`, parameterised by whether the two
transport calls succeed: a failed `ReportStatus` or `ReportOutputs` is
logged and execution continues; the function returns nil regardless. -/
def runManagedTail (r : RunResult) (statusOk outputsOk : Bool) :
    List TailEvent × Option GoErr :=
  let e1 : List TailEvent :=
    if statusOk then [.statusReported] else [.statusFailureLogged]
  let e2 : List TailEvent :=
    match r.outputs with
    | some _ => if outputsOk then [.outputsReported] else [.outputsFailureLogged]
    | none => []
  (e1 ++ e2 ++ [.completionLogged], none)
/-! # Helper lemmas -/

/-! ### Chunking -/

theorem chunksF_flatten : ∀ (f : Nat) (l : List LogEntry), l.length ≤ f →
    (chunksF f l).flatten = l := by
  intro f
  induction f with
  | zero =>
    intro l hl
    have : l = [] := List.eq_nil_of_length_eq_zero (Nat.le_zero.mp hl)
    subst this
    rfl
  | succ f ih =>
    intro l hl
    cases l with
    | nil => rfl
    | cons a as =>
      have hdrop : ((a :: as).drop 100).length ≤ f := by
        simp only [List.length_drop, List.length_cons] at *
        omega
      simp only [chunksF, List.flatten]
      rw [ih _ hdrop, List.take_append_drop]

theorem chunksF_le100 : ∀ (f : Nat) (l : List LogEntry) (c : List LogEntry),
    c ∈ chunksF f l → c.length ≤ 100 := by
  intro f
  induction f with
  | zero => intro l c hc; simp [chunksF] at hc
  | succ f ih =>
    intro l c hc
    cases l with
    | nil => simp [chunksF] at hc
    | cons a as =>
      simp only [chunksF, List.mem_cons] at hc
      rcases hc with h | h
      · subst h
        rw [List.length_take]
        exact Nat.min_le_left _ _
      · exact ih _ _ h

theorem chunksF_ne_nil : ∀ (f : Nat) (l : List LogEntry) (c : List LogEntry),
    c ∈ chunksF f l → c ≠ [] := by
  intro f
  induction f with
  | zero => intro l c hc; simp [chunksF] at hc
  | succ f ih =>
    intro l c hc
    cases l with
    | nil => simp [chunksF] at hc
    | cons a as =>
      simp only [chunksF, List.mem_cons] at hc
      rcases hc with h | h
      · subst h; simp
      · exact ih _ _ h

theorem chunksF_count : ∀ (f : Nat) (l : List LogEntry), l.length ≤ f →
    (chunksF f l).length = (l.length + 99) / 100 := by
  intro f
  induction f with
  | zero =>
    intro l hl
    have : l = [] := List.eq_nil_of_length_eq_zero (Nat.le_zero.mp hl)
    subst this; rfl
  | succ f ih =>
    intro l hl
    cases l with
    | nil => rfl
    | cons a as =>
      have hdrop : ((a :: as).drop 100).length ≤ f := by
        simp only [List.length_drop, List.length_cons] at *
        omega
      simp only [chunksF, List.length_cons]
      rw [ih _ hdrop]
      simp only [List.length_drop, List.length_cons]
      omega

theorem flushCalls_eq (buf : List LogEntry) :
    flushCalls buf = chunks100 (buf.map truncEntry) := by
  cases buf with
  | nil => rfl
  | cons a as => simp [flushCalls]

/-! ### Watcher traces -/

theorem watcherRun_skip_all : ∀ (pre rest : List WEvent),
    (∀ e ∈ pre, nonCancelTick e) →
    watcherRun (pre ++ WEvent.ctxDone :: rest) = (0, pre.length) := by
  intro pre
  induction pre with
  | nil => intro rest _; rfl
  | cons e es ih =>
    intro rest h
    obtain ⟨q, hq, hnc⟩ := h e (List.mem_cons_self _ _)
    subst hq
    simp only [List.cons_append, watcherRun, hnc, Bool.false_eq_true, if_false,
      List.append_eq]
    rw [ih rest (fun x hx => h x (List.mem_cons_of_mem _ hx))]
    simp

/-! ### Send loop -/

theorem sendChunks_fst : ∀ (fail : Nat → Bool) (i : Nat) (cs : List (List LogEntry)),
    (sendChunks fail i cs).map Prod.fst = cs := by
  intro fail i cs
  induction cs generalizing i with
  | nil => rfl
  | cons c cs ih => simp [sendChunks, ih]

/-! ### Filesystem -/

theorem lookupFS_removeFS (fs : FSys) (p : List Char) :
    lookupFS (removeFS fs p) p = none := by
  induction fs with
  | nil => rfl
  | cons e rest ih =>
    by_cases h : e.1 = p
    · simp only [removeFS, List.filter_cons]
      rw [if_neg (by simp [h])]
      exact ih
    · simp only [removeFS, List.filter_cons]
      rw [if_pos (by simp [h])]
      simp only [lookupFS, if_neg h]
      exact ih

theorem lookupFS_writeFS (fs : FSys) (p : List Char) (data : List Nat) :
    lookupFS (writeFS fs p data) p = some data := by
  simp [writeFS, lookupFS]

/-! ### Join and substring containment (for `parseResourceCounts`) -/

theorem leadMatch_append_self : ∀ (p r : List Char), leadMatch p (p ++ r) = true := by
  intro p
  induction p with
  | nil => intro r; rfl
  | cons c cs ih => intro r; simp [leadMatch, ih]

theorem subMatch_self_append (p r : List Char) : subMatch p (p ++ r) = true := by
  cases h : p ++ r with
  | nil =>
    obtain ⟨hp, _⟩ := List.append_eq_nil.mp h
    subst hp
    simp [subMatch, leadMatch]
  | cons c cs =>
    rw [subMatch, ← h, leadMatch_append_self]
    simp

theorem subMatch_cons (p : List Char) (c : Char) (s : List Char)
    (h : subMatch p s = true) : subMatch p (c :: s) = true := by
  rw [subMatch, h]
  simp

theorem subMatch_append_left : ∀ (pre p s : List Char),
    subMatch p s = true → subMatch p (pre ++ s) = true := by
  intro pre
  induction pre with
  | nil => intro p s h; exact h
  | cons c cs ih => intro p s h; exact subMatch_cons _ _ _ (ih _ _ h)

theorem mem_goContains : ∀ (parts : List (List Char)) (x : List Char),
    x ∈ parts → goContains (goJoin [','] parts) x = true := by
  intro parts
  induction parts with
  | nil => intro x hx; simp at hx
  | cons a as ih =>
    intro x hx
    cases as with
    | nil =>
      have hxa : x = a := by simpa using hx
      subst hxa
      show subMatch x x = true
      have := subMatch_self_append x []
      simpa using this
    | cons b bs =>
      rcases List.mem_cons.mp hx with hxa | hxs
      · subst hxa
        show subMatch x (goJoin [','] (x :: b :: bs)) = true
        rw [goJoin, List.append_assoc]
        exact subMatch_self_append x _
      · show subMatch x (goJoin [','] (a :: b :: bs)) = true
        rw [goJoin, List.append_assoc]
        exact subMatch_append_left a _ _ (subMatch_append_left [','] _ _ (ih x hxs))

theorem comma_mem_goJoin (a b : List Char) (t : List (List Char)) :
    ',' ∈ goJoin [','] (a :: b :: t) := by
  rw [goJoin]
  simp

/-- The replacement case of `countStep`: an action list containing both
"create" and "delete" falls into the fourth `switch` arm. -/
theorem countStep_replace (r : RunResult) (acts : List (List Char))
    (hc : "create".data ∈ acts) (hd : "delete".data ∈ acts) :
    countStep r acts = { r with resourcesToAdd := r.resourcesToAdd + 1,
                                resourcesToDestroy := r.resourcesToDestroy + 1 } := by
  obtain ⟨a, b, t, hacts⟩ : ∃ a b t, acts = a :: b :: t := by
    cases acts with
    | nil => simp at hc
    | cons a as =>
      cases as with
      | nil =>
        have h1 : "create".data = a := by simpa using hc
        have h2 : "delete".data = a := by simpa using hd
        rw [← h1] at h2
        exact absurd h2 (by decide)
      | cons b t => exact ⟨a, b, t, rfl⟩
  have hcomma : ',' ∈ goJoin [','] acts := by
    rw [hacts]; exact comma_mem_goJoin a b t
  have hne1 : ¬ (goJoin [','] acts = "create".data) := by
    intro h; rw [h] at hcomma; exact absurd hcomma (by decide)
  have hne2 : ¬ (goJoin [','] acts = "update".data) := by
    intro h; rw [h] at hcomma; exact absurd hcomma (by decide)
  have hne3 : ¬ (goJoin [','] acts = "delete".data) := by
    intro h; rw [h] at hcomma; exact absurd hcomma (by decide)
  have hcontains : (goContains (goJoin [','] acts) ("create".data) &&
      goContains (goJoin [','] acts) ("delete".data)) = true := by
    rw [mem_goContains acts _ hc, mem_goContains acts _ hd]
    rfl
  unfold countStep
  rw [if_neg hne1, if_neg hne2, if_neg hne3, if_pos hcontains]

/-! ### Count parsing preserves the exit code -/

theorem countStep_exitCode (r : RunResult) (acts : List (List Char)) :
    (countStep r acts).exitCode = r.exitCode := by
  simp only [countStep]
  split_ifs <;> rfl

theorem countChanges_exitCode : ∀ (doc : List (List (List Char))) (r : RunResult),
    (countChanges doc r).exitCode = r.exitCode := by
  intro doc
  induction doc with
  | nil => intro r; rfl
  | cons c cs ih =>
    intro r
    show (countChanges cs (countStep r c)).exitCode = r.exitCode
    rw [ih, countStep_exitCode]

theorem parseResourceCounts_exitCode (r : RunResult) :
    (parseResourceCounts r).exitCode = r.exitCode := by
  unfold parseResourceCounts
  match r.planJSON with
  | none => rfl
  | some none => rfl
  | some (some doc) => exact countChanges_exitCode doc r

/-- `Executor.plan` as a function of the subprocess outcome alone: the
returned exit code and error do not depend on the best-effort plan-JSON
branch. -/
theorem planModel_exit (env : PlanEnv) :
    (planModel env).1.exitCode =
      (match env.cmdOutcome with
       | .ok => 0
       | .exitErr c => if c = 2 then 2 else c
       | .startFail => 0)
    ∧ (planModel env).2 =
      (match env.cmdOutcome with
       | .ok => none
       | .exitErr c => if c = 2 then none else some GoErr.subprocessErr
       | .startFail => some GoErr.startErr) := by
  unfold planModel
  cases env.cmdOutcome with
  | ok =>
    refine ⟨?_, rfl⟩
    cases hstat : env.planFileStat
    · rfl
    · simp only [hstat, if_true]
      cases env.showResult with
      | none => rfl
      | some pj => exact parseResourceCounts_exitCode _
  | exitErr c =>
    by_cases hc : c = 2
    · subst hc
      refine ⟨?_, by simp⟩
      simp only [if_pos rfl]
      cases hstat : env.planFileStat
      · rfl
      · simp only [hstat, if_true]
        cases env.showResult with
        | none => rfl
        | some pj => exact parseResourceCounts_exitCode _
    · refine ⟨?_, by simp [hc]⟩
      simp only [if_neg hc]
      cases hstat : env.planFileStat
      · rfl
      · simp only [hstat, if_true]
        cases env.showResult with
        | none => rfl
        | some pj => exact parseResourceCounts_exitCode _
  | startFail =>
    refine ⟨?_, rfl⟩
    cases hstat : env.planFileStat
    · rfl
    · simp only [hstat, if_true]
      cases env.showResult with
      | none => rfl
      | some pj => exact parseResourceCounts_exitCode _

/-! ### Sequence-number bookkeeping of `readLines` -/

theorem feedLines_spec : ∀ (tag : List Char) (lines : List (List Char)) (w : WState),
    feedLines tag w lines =
      { seq := w.seq + lines.length, buf := w.buf ++ mkEntries tag w.seq lines } := by
  intro tag lines
  induction lines with
  | nil =>
    intro w
    simp [feedLines, mkEntries]
  | cons l ls ih =>
    intro w
    show feedLines tag (observeLine tag w l) ls = _
    rw [ih]
    simp [observeLine, mkEntries, List.append_assoc]
    omega

theorem mkEntries_seq_bounds : ∀ (tag : List Char) (lines : List (List Char)) (s : Nat)
    (e : LogEntry), e ∈ mkEntries tag s lines → s < e.sequence ∧ e.sequence ≤ s + lines.length := by
  intro tag lines
  induction lines with
  | nil => intro s e he; simp [mkEntries] at he
  | cons l ls ih =>
    intro s e he
    simp only [mkEntries, List.mem_cons] at he
    rcases he with h | h
    · subst h
      simp
    · have := ih (s + 1) e h
      constructor <;> [omega; (simp only [List.length_cons]; omega)]

theorem mkEntries_pairwise : ∀ (tag : List Char) (lines : List (List Char)) (s : Nat),
    List.Pairwise (fun a b => a < b) ((mkEntries tag s lines).map LogEntry.sequence) := by
  intro tag lines
  induction lines with
  | nil => intro s; simp [mkEntries]
  | cons l ls ih =>
    intro s
    simp only [mkEntries, List.map_cons]
    refine List.Pairwise.cons ?_ (ih (s + 1))
    intro b hb
    obtain ⟨e, he, hbe⟩ := List.mem_map.mp hb
    have := mkEntries_seq_bounds tag ls (s + 1) e he
    omega

theorem mkEntries_map_content : ∀ (tag : List Char) (lines : List (List Char)) (s : Nat),
    (mkEntries tag s lines).map LogEntry.content = lines := by
  intro tag lines
  induction lines with
  | nil => intro s; rfl
  | cons l ls ih => intro s; simp [mkEntries, ih]

/-! ### Digit strings and the summary scanner -/

theorem digitChar_isDigit : ∀ d, d < 10 → (Char.ofNat (48 + d)).isDigit = true := by decide

theorem digitChar_val : ∀ d, d < 10 → digitVal (Char.ofNat (48 + d)) = d := by decide

theorem natDigitsF_digits : ∀ (f n : Nat), n < f → ∀ c ∈ natDigitsF f n, c.isDigit = true := by
  intro f
  induction f with
  | zero => intro n hn; omega
  | succ f ih =>
    intro n hn c hc
    by_cases h10 : n < 10
    · simp only [natDigitsF, if_pos h10, List.mem_singleton] at hc
      subst hc
      exact digitChar_isDigit n h10
    · simp only [natDigitsF, if_neg h10, List.mem_append, List.mem_singleton] at hc
      rcases hc with h | h
      · have hdiv : n / 10 < n := Nat.div_lt_self (by omega) (by omega)
        exact ih (n / 10) (by omega) c h
      · subst h
        exact digitChar_isDigit _ (Nat.mod_lt _ (by omega))

theorem natDigitsF_ne_nil : ∀ (f n : Nat), n < f → natDigitsF f n ≠ [] := by
  intro f
  induction f with
  | zero => intro n hn; omega
  | succ f _ =>
    intro n _
    by_cases h10 : n < 10
    · simp [natDigitsF, if_pos h10]
    · simp [natDigitsF, if_neg h10]

theorem natDigits_digits (n : Nat) : ∀ c ∈ natDigits n, c.isDigit = true :=
  natDigitsF_digits (n + 1) n (Nat.lt_succ_self n)

theorem natDigits_ne_nil (n : Nat) : natDigits n ≠ [] :=
  natDigitsF_ne_nil (n + 1) n (Nat.lt_succ_self n)

theorem foldl_natDigitsF : ∀ (f n acc : Nat), n < f →
    List.foldl (fun a c => a * 10 + digitVal c) acc (natDigitsF f n) =
      acc * 10 ^ (natDigitsF f n).length + n := by
  intro f
  induction f with
  | zero => intro n acc hn; omega
  | succ f ih =>
    intro n acc hn
    by_cases h10 : n < 10
    · simp only [natDigitsF, if_pos h10, List.foldl_cons, List.foldl_nil,
        List.length_singleton, pow_one]
      rw [digitChar_val n h10]
    · have hdiv : n / 10 < n := Nat.div_lt_self (by omega) (by omega)
      simp only [natDigitsF, if_neg h10, List.foldl_append, List.foldl_cons,
        List.foldl_nil, List.length_append, List.length_singleton]
      rw [ih (n / 10) acc (by omega), digitChar_val _ (Nat.mod_lt _ (by omega))]
      have hmod : 10 * (n / 10) + n % 10 = n := Nat.div_add_mod n 10
      rw [pow_succ]
      ring_nf
      omega

theorem grabDigits_digits_append :
    ∀ (ds : List Char) (acc : Nat) (rest : List Char),
    (∀ c ∈ ds, c.isDigit = true) →
    (∀ c, rest.head? = some c → c.isDigit = false) →
    grabDigits acc (ds ++ rest) =
      (List.foldl (fun a c => a * 10 + digitVal c) acc ds, rest) := by
  intro ds
  induction ds with
  | nil =>
    intro acc rest _ hr
    cases rest with
    | nil => rfl
    | cons c cs =>
      have : c.isDigit = false := hr c rfl
      simp [grabDigits, this]
  | cons d ds ih =>
    intro acc rest hd hr
    have hdd : d.isDigit = true := hd d (List.mem_cons_self _ _)
    simp only [List.cons_append, grabDigits, hdd, if_true, List.foldl_cons]
    exact ih _ rest (fun c hc => hd c (List.mem_cons_of_mem _ hc)) hr

theorem grabDigits_natDigits (n : Nat) (rest : List Char)
    (hr : ∀ c, rest.head? = some c → c.isDigit = false) :
    grabDigits 0 (natDigits n ++ rest) = (n, rest) := by
  rw [grabDigits_digits_append (natDigits n) 0 rest (natDigits_digits n) hr]
  rw [show natDigits n = natDigitsF (n + 1) n from rfl,
    foldl_natDigitsF (n + 1) n 0 (Nat.lt_succ_self n)]
  simp

theorem stripLead_self : ∀ (p s : List Char), stripLead p (p ++ s) = some s := by
  intro p
  induction p with
  | nil => intro s; rfl
  | cons c cs ih => intro s; simp [stripLead, ih]

theorem tryMatch_nodigit (c : Char) (cs : List Char) (h : c.isDigit = false) :
    tryMatch (c :: cs) = none := by
  simp [tryMatch, h]

theorem tryMatch_at (n : Nat) (k : SKind) (rest : List Char) :
    tryMatch (natDigits n ++ ' ' :: (kwChars k ++ rest)) = some (n, k, rest) := by
  obtain ⟨d, ds, hds⟩ := List.exists_cons_of_ne_nil (natDigits_ne_nil n)
  have hdig : d.isDigit = true := natDigits_digits n d (by rw [hds]; exact List.mem_cons_self _ _)
  have hgrab : grabDigits 0 (natDigits n ++ ' ' :: (kwChars k ++ rest)) =
      (n, ' ' :: (kwChars k ++ rest)) :=
    grabDigits_natDigits n _ (fun c hc => by
      simp only [List.head?] at hc
      cases hc
      decide)
  have hcons : natDigits n ++ ' ' :: (kwChars k ++ rest) =
      d :: (ds ++ ' ' :: (kwChars k ++ rest)) := by
    rw [hds]; rfl
  rw [hcons] at hgrab ⊢
  simp only [tryMatch, hdig, if_true, hgrab]
  cases k with
  | added =>
    simp only [kwChars]
    rw [stripLead_self]
  | changed =>
    simp only [kwChars]
    rw [show stripLead ("added".data) ("changed".data ++ rest) = none from rfl,
      stripLead_self]
  | destroyed =>
    simp only [kwChars]
    rw [show stripLead ("added".data) ("destroyed".data ++ rest) = none from rfl,
      show stripLead ("changed".data) ("destroyed".data ++ rest) = none from rfl,
      stripLead_self]

theorem grabDigits_suffix_len : ∀ (s : List Char) (acc : Nat),
    (grabDigits acc s).2.length ≤ s.length := by
  intro s
  induction s with
  | nil => intro acc; simp [grabDigits]
  | cons c cs ih =>
    intro acc
    by_cases h : c.isDigit
    · simp only [grabDigits, h, if_true]
      exact Nat.le_succ_of_le (ih _)
    · simp [grabDigits, h]

theorem stripLead_len : ∀ (p s r : List Char), stripLead p s = some r → r.length ≤ s.length := by
  intro p
  induction p with
  | nil =>
    intro s r h
    simp only [stripLead, Option.some.injEq] at h
    subst h
    exact Nat.le_refl _
  | cons c cs ih =>
    intro s r h
    cases s with
    | nil => simp [stripLead] at h
    | cons a as =>
      simp only [stripLead] at h
      by_cases hca : c == a
      · rw [if_pos hca] at h
        exact Nat.le_succ_of_le (ih as r h)
      · rw [if_neg hca] at h
        simp at h

theorem tryMatch_rest_len : ∀ (s : List Char) (n : Nat) (k : SKind) (rest : List Char),
    tryMatch s = some (n, k, rest) → rest.length < s.length := by
  intro s n k rest h
  cases s with
  | nil => simp [tryMatch] at h
  | cons c cs =>
    simp only [tryMatch] at h
    by_cases hd : c.isDigit
    · simp only [hd, if_true] at h
      have hsub := grabDigits_suffix_len (c :: cs) 0
      cases hg2 : (grabDigits 0 (c :: cs)).2 with
      | nil => rw [hg2] at h; simp at h
      | cons c2 r2 =>
        rw [hg2] at h hsub
        dsimp only at h
        by_cases hsp : c2 = ' '
        · rw [if_pos hsp] at h
          have hr2 : r2.length < (c :: cs).length := by
            simp only [List.length_cons] at hsub ⊢
            omega
          cases hA : stripLead ("added".data) r2 with
          | some r3 =>
            rw [hA] at h
            simp only [Option.some.injEq, Prod.mk.injEq] at h
            have := stripLead_len _ _ _ hA
            have hr3 : rest = r3 := by tauto
            subst hr3
            omega
          | none =>
            rw [hA] at h
            cases hB : stripLead ("changed".data) r2 with
            | some r3 =>
              rw [hB] at h
              simp only [Option.some.injEq, Prod.mk.injEq] at h
              have := stripLead_len _ _ _ hB
              have hr3 : rest = r3 := by tauto
              subst hr3
              omega
            | none =>
              rw [hB] at h
              cases hC : stripLead ("destroyed".data) r2 with
              | some r3 =>
                rw [hC] at h
                simp only [Option.some.injEq, Prod.mk.injEq] at h
                have := stripLead_len _ _ _ hC
                have hr3 : rest = r3 := by tauto
                subst hr3
                omega
              | none => rw [hC] at h; simp at h
        · rw [if_neg hsp] at h; simp at h
    · simp [hd] at h

theorem scanF_mono : ∀ (f1 : Nat) (s : List Char) (f2 : Nat),
    s.length ≤ f1 → s.length ≤ f2 → scanF f1 s = scanF f2 s := by
  intro f1
  induction f1 with
  | zero =>
    intro s f2 h1 _
    have hs : s = [] := List.eq_nil_of_length_eq_zero (Nat.le_zero.mp h1)
    subst hs
    cases f2 <;> rfl
  | succ f ih =>
    intro s f2 h1 h2
    cases s with
    | nil => cases f2 <;> rfl
    | cons c cs =>
      cases f2 with
      | zero => simp at h2
      | succ g =>
        simp only [scanF]
        cases hT : tryMatch (c :: cs) with
        | none =>
          simp only [List.length_cons] at h1 h2
          exact ih cs g (by omega) (by omega)
        | some t =>
          obtain ⟨n, k, rest⟩ := t
          have hlt := tryMatch_rest_len _ _ _ _ hT
          simp only [List.length_cons] at h1 h2 hlt
          dsimp only
          rw [ih rest g (by omega) (by omega)]

theorem scanAll_cons_nd (c : Char) (s : List Char) (h : c.isDigit = false) :
    scanAll (c :: s) = scanAll s := by
  unfold scanAll
  simp only [List.length_cons, scanF, tryMatch_nodigit c s h]

theorem scanAll_skip : ∀ (pre s : List Char),
    (∀ c ∈ pre, c.isDigit = false) → scanAll (pre ++ s) = scanAll s := by
  intro pre
  induction pre with
  | nil => intro s _; rfl
  | cons c cs ih =>
    intro s h
    rw [List.cons_append, scanAll_cons_nd c _ (h c (List.mem_cons_self _ _))]
    exact ih s (fun x hx => h x (List.mem_cons_of_mem _ hx))

theorem scanAll_match (n : Nat) (k : SKind) (rest : List Char) :
    scanAll (natDigits n ++ ' ' :: (kwChars k ++ rest)) = (n, k) :: scanAll rest := by
  obtain ⟨d, ds, hds⟩ := List.exists_cons_of_ne_nil (natDigits_ne_nil n)
  have hT : tryMatch (natDigits n ++ ' ' :: (kwChars k ++ rest)) = some (n, k, rest) :=
    tryMatch_at n k rest
  have hlt := tryMatch_rest_len _ _ _ _ hT
  have hcons : natDigits n ++ ' ' :: (kwChars k ++ rest) =
      d :: (ds ++ ' ' :: (kwChars k ++ rest)) := by
    rw [hds]; rfl
  rw [hcons] at hT hlt
  unfold scanAll
  rw [hcons]
  simp only [List.length_cons, scanF, hT]
  congr 1
  simp only [List.length_cons] at hlt
  exact scanF_mono _ rest _ (by omega) (Nat.le_refl _)

theorem sepAdded : (" added, ".data : List Char) = ' ' :: ("added".data ++ [',', ' ']) := rfl

theorem sepChanged : (" changed, ".data : List Char) = ' ' :: ("changed".data ++ [',', ' ']) := rfl

theorem sepDestroyed : (" destroyed.".data : List Char) = ' ' :: ("destroyed".data ++ ['.']) := rfl

theorem scanAll_summaryTriple (n m k : Nat) (rest : List Char) :
    scanAll (summaryTriple n m k ++ rest) =
      (n, SKind.added) :: (m, SKind.changed) :: (k, SKind.destroyed) :: scanAll rest := by
  have hshape : summaryTriple n m k ++ rest =
      natDigits n ++ ' ' :: (kwChars .added ++
        (',' :: ' ' :: (natDigits m ++ ' ' :: (kwChars .changed ++
          (',' :: ' ' :: (natDigits k ++ ' ' :: (kwChars .destroyed ++
            '.' :: rest))))))) := by
    simp only [summaryTriple, sepAdded, sepChanged, sepDestroyed, kwChars,
      List.cons_append, List.append_assoc, List.nil_append]
  rw [hshape, scanAll_match n .added]
  rw [scanAll_cons_nd ',' _ (by decide), scanAll_cons_nd ' ' _ (by decide)]
  rw [scanAll_match m .changed]
  rw [scanAll_cons_nd ',' _ (by decide), scanAll_cons_nd ' ' _ (by decide)]
  rw [scanAll_match k .destroyed]
  rw [scanAll_cons_nd '.' _ (by decide)]

theorem scanAll_applyLine (n m k : Nat) (rest : List Char) :
    scanAll (applyLine n m k ++ rest) =
      (n, SKind.added) :: (m, SKind.changed) :: (k, SKind.destroyed) :: scanAll rest := by
  have hs : applyLine n m k ++ rest =
      "Apply complete! Resources: ".data ++ (summaryTriple n m k ++ rest) := by
    simp [applyLine, List.append_assoc]
  rw [hs, scanAll_skip _ _ (by decide), scanAll_summaryTriple]

/-! # Claim theorems -/

/-- C1 (counterexample): with the stderr sink seeded from the stdout sink's
sequence at construction time, exactly as `RunManaged` does
(`stderrLog := NewWriter(..., stdoutLog.Sequence())` right after
`stdoutLog := NewWriter(..., 0)`), the interleaving that sends one line to
each sink assigns the sequence number 1 twice, so the merged sequence
numbers are not strictly increasing and contain a duplicate. -/
theorem C1_counterexample :
    mergedAssign (newWriter 0) (newWriter ((newWriter 0).sequenceOf))
        [(true, []), (false, [])] = [1, 1]
    ∧ ¬ List.Pairwise (fun a b => a < b)
        (mergedAssign (newWriter 0) (newWriter ((newWriter 0).sequenceOf))
          [(true, []), (false, [])]) := by
  constructor
  · rfl
  · decide

/-- C1 (amended): when the second sink is seeded with the first's *final*
sequence — i.e. every line of the first sink is observed before the second
sink is constructed — each sink records its lines in observation order with
consecutive sequence numbers, and the merged sequence numbers across both
sinks are strictly increasing with no duplicates. -/
theorem C1_amended (s0 : Nat) (lines1 lines2 : List (List Char)) :
    (feedLines stdoutTag (newWriter s0) lines1).buf = mkEntries stdoutTag s0 lines1
    ∧ (feedLines stderrTag
        (newWriter ((feedLines stdoutTag (newWriter s0) lines1).sequenceOf)) lines2).buf =
        mkEntries stderrTag (s0 + lines1.length) lines2
    ∧ List.Pairwise (fun a b => a < b)
        (((feedLines stdoutTag (newWriter s0) lines1).buf ++
          (feedLines stderrTag
            (newWriter ((feedLines stdoutTag (newWriter s0) lines1).sequenceOf)) lines2).buf).map
          LogEntry.sequence)
    ∧ ((feedLines stdoutTag (newWriter s0) lines1).buf ++
        (feedLines stderrTag
          (newWriter ((feedLines stdoutTag (newWriter s0) lines1).sequenceOf)) lines2).buf).map
        LogEntry.content = lines1 ++ lines2 := by
  have hw1 : feedLines stdoutTag (newWriter s0) lines1 =
      { seq := s0 + lines1.length, buf := mkEntries stdoutTag s0 lines1 } := by
    rw [feedLines_spec]
    simp [newWriter]
  have hseq : (feedLines stdoutTag (newWriter s0) lines1).sequenceOf = s0 + lines1.length := by
    rw [hw1]
    rfl
  have hw2 : feedLines stderrTag
      (newWriter ((feedLines stdoutTag (newWriter s0) lines1).sequenceOf)) lines2 =
      { seq := s0 + lines1.length + lines2.length,
        buf := mkEntries stderrTag (s0 + lines1.length) lines2 } := by
    rw [hseq, feedLines_spec]
    simp [newWriter]
  refine ⟨by rw [hw1], by rw [hw2], ?_, ?_⟩
  · rw [hw2, hw1]
    simp only [List.map_append]
    rw [List.pairwise_append]
    refine ⟨mkEntries_pairwise _ _ _, mkEntries_pairwise _ _ _, ?_⟩
    intro a ha b hb
    obtain ⟨e1, he1, hae⟩ := List.mem_map.mp ha
    obtain ⟨e2, he2, hbe⟩ := List.mem_map.mp hb
    have h1 := mkEntries_seq_bounds _ _ _ _ he1
    have h2 := mkEntries_seq_bounds _ _ _ _ he2
    omega
  · rw [hw2, hw1]
    simp only [List.map_append, mkEntries_map_content]

/-- C2: `parseResourceCounts` counts each resource change by its joined
action set: exactly "create" increments the add counter, exactly "update"
the change counter, exactly "delete" the destroy counter, and a set
containing both "create" and "delete" (replacement) increments both add
and destroy; the example change list
[create, create, update, delete, {delete,create}] yields add=3, change=1,
destroy=2. -/
theorem C2_resourceCounts :
    (∀ r : RunResult, countStep r ["create".data] =
        { r with resourcesToAdd := r.resourcesToAdd + 1 })
    ∧ (∀ r : RunResult, countStep r ["update".data] =
        { r with resourcesToChange := r.resourcesToChange + 1 })
    ∧ (∀ r : RunResult, countStep r ["delete".data] =
        { r with resourcesToDestroy := r.resourcesToDestroy + 1 })
    ∧ (∀ (r : RunResult) (acts : List (List Char)),
        "create".data ∈ acts → "delete".data ∈ acts →
        countStep r acts = { r with resourcesToAdd := r.resourcesToAdd + 1,
                                    resourcesToDestroy := r.resourcesToDestroy + 1 })
    ∧ (∀ r : RunResult,
        countChanges [["create".data], ["create".data], ["update".data], ["delete".data],
          ["delete".data, "create".data]] r =
        { r with resourcesToAdd := r.resourcesToAdd + 3,
                 resourcesToChange := r.resourcesToChange + 1,
                 resourcesToDestroy := r.resourcesToDestroy + 2 }) := by
  refine ⟨fun r => rfl, fun r => rfl, fun r => rfl, countStep_replace, fun r => ?_⟩
  show countStep (countStep (countStep (countStep (countStep r
    ["create".data]) ["create".data]) ["update".data]) ["delete".data])
    ["delete".data, "create".data] = _
  rfl

/-- Witness for C2: the replacement case evaluated at a concrete change. -/
theorem C2_witness :
    countStep ({} : RunResult) ["delete".data, "create".data] =
      { ({} : RunResult) with
        resourcesToAdd := ({} : RunResult).resourcesToAdd + 1,
        resourcesToDestroy := ({} : RunResult).resourcesToDestroy + 1 } :=
  C2_resourceCounts.2.2.2.1 {} ["delete".data, "create".data] (by decide) (by decide)

/-- C3: for the plan operation, subprocess exit code 2 yields a nil error
and the run is reported "succeeded" (with exit code 2); exit code 0 is
success with no changes; any other non-zero exit code is an error and the
run is reported "failed" carrying that exit code. -/
theorem C3_planExitCodes :
    (∀ env : ExecEnv, env.planEnv.cmdOutcome = CmdOutcome.exitErr 2 →
      (planModel env.planEnv).2 = none ∧
      statusAfterRun (runExec "plan" env) = some ("succeeded", 2))
    ∧ (∀ env : ExecEnv, env.planEnv.cmdOutcome = CmdOutcome.ok →
      (planModel env.planEnv).2 = none ∧
      statusAfterRun (runExec "plan" env) = some ("succeeded", 0))
    ∧ (∀ (env : ExecEnv) (c : Int), c ≠ 0 → c ≠ 2 →
      env.planEnv.cmdOutcome = CmdOutcome.exitErr c →
      (planModel env.planEnv).2 = some GoErr.subprocessErr ∧
      statusAfterRun (runExec "plan" env) = some ("failed", c)) := by
  have hrun : ∀ env : ExecEnv, runExec "plan" env =
      (some (planModel env.planEnv).1, (planModel env.planEnv).2) := by
    intro env
    simp [runExec]
  refine ⟨?_, ?_, ?_⟩
  · intro env hcmd
    obtain ⟨hec, herr⟩ := planModel_exit env.planEnv
    rw [hcmd] at hec herr
    simp only [if_pos rfl] at hec herr
    refine ⟨herr, ?_⟩
    rw [hrun env, herr]
    simp [statusAfterRun, hec]
  · intro env hcmd
    obtain ⟨hec, herr⟩ := planModel_exit env.planEnv
    rw [hcmd] at hec herr
    simp only [] at hec herr
    refine ⟨herr, ?_⟩
    rw [hrun env, herr]
    simp [statusAfterRun, hec]
  · intro env c hc0 hc2 hcmd
    obtain ⟨hec, herr⟩ := planModel_exit env.planEnv
    rw [hcmd] at hec herr
    simp only [if_neg hc2] at hec herr
    refine ⟨herr, ?_⟩
    rw [hrun env, herr]
    simp [statusAfterRun, hec]

/-- Witness for C3: a plan whose subprocess exits 1 returns a subprocess
error and is reported "failed" with exit code 1. -/
theorem C3_witness :
    (planModel (⟨CmdOutcome.exitErr 1, [], [], false, none⟩ : PlanEnv)).2 =
      some GoErr.subprocessErr
    ∧ statusAfterRun (runExec "plan"
        ⟨⟨CmdOutcome.exitErr 1, [], [], false, none⟩,
         ⟨CmdOutcome.ok, [], [], none⟩,
         ⟨CmdOutcome.ok, [], []⟩⟩) = some ("failed", 1) :=
  C3_planExitCodes.2.2
    ⟨⟨CmdOutcome.exitErr 1, [], [], false, none⟩,
     ⟨CmdOutcome.ok, [], [], none⟩,
     ⟨CmdOutcome.ok, [], []⟩⟩ 1 (by decide) (by decide) rfl

/-- C4: `parseSummaryCounts` sets the add/change/destroy counters to the
numbers N, M, K matched from a summary line
"... N added, M changed, K destroyed."; when two such lines appear, the
later line's numbers win. -/
theorem C4_parseSummaryCounts (n m k n2 m2 k2 : Nat) (r : RunResult) :
    parseSummaryCounts (applyLine n m k) r =
      { r with resourcesToAdd := n, resourcesToChange := m, resourcesToDestroy := k }
    ∧ parseSummaryCounts (applyLine n m k ++ '\n' :: applyLine n2 m2 k2) r =
      { r with resourcesToAdd := n2, resourcesToChange := m2, resourcesToDestroy := k2 } := by
  constructor
  · have h := scanAll_applyLine n m k []
    rw [List.append_nil] at h
    unfold parseSummaryCounts
    rw [h]
    rfl
  · have h2 := scanAll_applyLine n2 m2 k2 []
    rw [List.append_nil] at h2
    have h1 := scanAll_applyLine n m k ('\n' :: applyLine n2 m2 k2)
    have hnl : scanAll ('\n' :: applyLine n2 m2 k2) = scanAll (applyLine n2 m2 k2) :=
      scanAll_cons_nd _ _ (by decide)
    unfold parseSummaryCounts
    rw [h1, hnl, h2]
    rfl

/-- C5: closing a sink with N buffered entries performs one final flush
whose transport calls, concatenated, are exactly the truncated buffer (all
N entries, none dropped), in non-empty chunks of at most 100 entries,
⌈N/100⌉ chunks in total, leaving the buffer empty. -/
theorem C5_closeFlush (w : WState) :
    (w.closeM).2.flatten = w.buf.map truncEntry
    ∧ (∀ c ∈ (w.closeM).2, c.length ≤ 100)
    ∧ (∀ c ∈ (w.closeM).2, c ≠ [])
    ∧ (w.closeM).2.length = (w.buf.length + 99) / 100
    ∧ (w.closeM).2.flatten.length = w.buf.length
    ∧ (w.closeM).1.buf = [] := by
  have hcalls : (w.closeM).2 =
      chunksF (w.buf.map truncEntry).length (w.buf.map truncEntry) := by
    show flushCalls w.buf = _
    rw [flushCalls_eq]
    rfl
  have hlen : (w.buf.map truncEntry).length = w.buf.length := List.length_map _ _
  refine ⟨?_, ?_, ?_, ?_, ?_, rfl⟩
  · rw [hcalls]
    exact chunksF_flatten _ _ (Nat.le_refl _)
  · intro c hc
    rw [hcalls] at hc
    exact chunksF_le100 _ _ _ hc
  · intro c hc
    rw [hcalls] at hc
    exact chunksF_ne_nil _ _ _ hc
  · rw [hcalls, chunksF_count _ _ (Nat.le_refl _), hlen]
  · rw [hcalls, chunksF_flatten _ _ (Nat.le_refl _), hlen]

/-- Witness for C5: a single buffered entry is delivered whole in one
chunk of size 1 by the final flush. -/
theorem C5_witness :
    (WState.closeM ⟨0, [⟨1, stdoutTag, []⟩]⟩).2.flatten =
      ([⟨1, stdoutTag, []⟩] : List LogEntry).map truncEntry
    ∧ ([truncEntry ⟨1, stdoutTag, []⟩] : List LogEntry).length ≤ 100 := by
  refine ⟨(C5_closeFlush ⟨0, [⟨1, stdoutTag, []⟩]⟩).1, ?_⟩
  exact (C5_closeFlush ⟨0, [⟨1, stdoutTag, []⟩]⟩).2.1 [truncEntry ⟨1, stdoutTag, []⟩]
    (by decide)

/-- C6: transport failures never abort the run: the flush send-loop
attempts every chunk exactly once regardless of which sends fail, and the
success tail of `RunManaged` returns nil and still reaches the outputs
report and the completion log even when the status report failed. -/
theorem C6_transportFailures :
    (∀ (fail : Nat → Bool) (i : Nat) (cs : List (List LogEntry)),
      (sendChunks fail i cs).map Prod.fst = cs)
    ∧ (∀ (buf : List LogEntry) (fail : Nat → Bool),
      (sendChunks fail 0 (flushCalls buf)).map Prod.fst = flushCalls buf)
    ∧ (∀ (r : RunResult) (statusOk outputsOk : Bool),
      (runManagedTail r statusOk outputsOk).2 = none)
    ∧ (∀ (r : RunResult) (statusOk outputsOk : Bool),
      TailEvent.completionLogged ∈ (runManagedTail r statusOk outputsOk).1)
    ∧ (∀ (r : RunResult) (outputsOk : Bool), r.outputs.isSome = true →
      TailEvent.outputsReported ∈ (runManagedTail r false outputsOk).1 ∨
      TailEvent.outputsFailureLogged ∈ (runManagedTail r false outputsOk).1) := by
  refine ⟨sendChunks_fst, fun buf fail => sendChunks_fst fail 0 _, fun r s o => rfl,
    ?_, ?_⟩
  · intro r statusOk outputsOk
    simp [runManagedTail]
  · intro r outputsOk h
    cases houts : r.outputs with
    | none => rw [houts] at h; simp at h
    | some o =>
      cases outputsOk with
      | true =>
        left
        simp [runManagedTail, houts]
      | false =>
        right
        simp [runManagedTail, houts]

/-- Witness for C6: with outputs present and a failed status report, the
outputs report is still issued. -/
theorem C6_witness :
    TailEvent.outputsReported ∈
      (runManagedTail { outputs := some [] } false true).1 ∨
    TailEvent.outputsFailureLogged ∈
      (runManagedTail { outputs := some [] } false true).1 :=
  C6_transportFailures.2.2.2.2 { outputs := some [] } true (by decide)

/-- C7: the watcher treats every status-query error as not-cancelled and
keeps polling; a poll that observes "cancelled" fires the cancellation
function exactly once and stops before any second poll; when the
surrounding context ends it stops without ever firing. -/
theorem C7_watcher :
    (isCancelledM QueryOutcome.reqErr = false
      ∧ isCancelledM QueryOutcome.netErr = false
      ∧ isCancelledM QueryOutcome.decodeErr = false)
    ∧ (∀ (q : QueryOutcome) (rest : List WEvent), isCancelledM q = false →
      watcherRun (WEvent.tick q :: rest) = ((watcherRun rest).1, (watcherRun rest).2 + 1))
    ∧ (∀ rest : List WEvent,
      watcherRun (WEvent.tick (QueryOutcome.okStatus "cancelled") :: rest) = (1, 1))
    ∧ (∀ rest : List WEvent, watcherRun (WEvent.ctxDone :: rest) = (0, 0))
    ∧ (∀ (pre rest : List WEvent), (∀ e ∈ pre, nonCancelTick e) →
      watcherRun (pre ++ WEvent.ctxDone :: rest) = (0, pre.length)) := by
  refine ⟨⟨rfl, rfl, rfl⟩, ?_, ?_, fun rest => rfl, watcherRun_skip_all⟩
  · intro q rest h
    simp [watcherRun, h]
  · intro rest
    rfl

/-- Witness for C7: two non-cancelled polls (one a network error, one
"running") followed by context end: the watcher polls twice and never
fires. -/
theorem C7_witness :
    watcherRun [WEvent.tick QueryOutcome.netErr,
      WEvent.tick (QueryOutcome.okStatus "running"), WEvent.ctxDone] = (0, 2) := by
  have h := C7_watcher.2.2.2.2
    [WEvent.tick QueryOutcome.netErr, WEvent.tick (QueryOutcome.okStatus "running")] []
    (by
      intro e he
      simp only [List.mem_cons, List.not_mem_nil, or_false] at he
      rcases he with h | h
      · exact ⟨QueryOutcome.netErr, h, rfl⟩
      · exact ⟨QueryOutcome.okStatus "running", h, rfl⟩)
  simpa using h

/-- C8 (counterexample): the deferred closes in `RunManaged` run in LIFO
order, so on a successful run the stdout sink closes before the stderr
sink — the claimed stderr-then-stdout order does not hold. -/
theorem C8_counterexample :
    ¬ (List.indexOf Cleanup.closeStderrSink (runManagedCleanup ExitPath.success) <
       List.indexOf Cleanup.closeStdoutSink (runManagedCleanup ExitPath.success)) := by
  decide

/-- C8 (amended): on every exit path reachable after the sinks exist, both
sinks are closed during cleanup, in stdout-then-stderr order. -/
theorem C8_amended (p : ExitPath) :
    Cleanup.closeStdoutSink ∈ runManagedCleanup p
    ∧ Cleanup.closeStderrSink ∈ runManagedCleanup p
    ∧ List.indexOf Cleanup.closeStdoutSink (runManagedCleanup p) <
      List.indexOf Cleanup.closeStderrSink (runManagedCleanup p) := by
  cases p <;> exact ⟨by decide, by decide, by decide⟩

/-- C9: on an existing file of size S, `SecureDelete` first overwrites the
content with S zero bytes and then removes the path, so afterwards the
path does not exist (lookup and stat both fail); on a path that cannot be
stat'ed it does nothing. -/
theorem C9_secureDelete :
    (∀ (fs : FSys) (p : List Char) (content : List Nat),
      lookupFS fs p = some content →
      secureDeleteTrace fs p =
        [writeFS fs p (List.replicate content.length 0),
         removeFS (writeFS fs p (List.replicate content.length 0)) p]
      ∧ lookupFS (writeFS fs p (List.replicate content.length 0)) p =
          some (List.replicate content.length 0)
      ∧ secureDelete fs p =
          removeFS (writeFS fs p (List.replicate content.length 0)) p
      ∧ lookupFS (secureDelete fs p) p = none
      ∧ statFS (secureDelete fs p) p = none)
    ∧ (∀ (fs : FSys) (p : List Char), statFS fs p = none → secureDelete fs p = fs) := by
  constructor
  · intro fs p content h
    have hstat : statFS fs p = some content.length := by
      rw [statFS, h]
      rfl
    have hsd : secureDelete fs p =
        removeFS (writeFS fs p (List.replicate content.length 0)) p := by
      unfold secureDelete
      rw [hstat]
    refine ⟨?_, lookupFS_writeFS fs p _, hsd, ?_, ?_⟩
    · unfold secureDeleteTrace
      rw [hstat]
    · rw [hsd]
      exact lookupFS_removeFS _ _
    · rw [statFS, hsd, lookupFS_removeFS]
      rfl
  · intro fs p h
    unfold secureDelete
    rw [h]

/-- Witness for C9: a two-byte file is overwritten with two zero bytes and
then no longer exists. -/
theorem C9_witness :
    lookupFS (secureDelete [("v".data, [7, 7])] ("v".data)) ("v".data) = none
    ∧ lookupFS (writeFS [("v".data, [7, 7])] ("v".data) (List.replicate 2 0)) ("v".data) =
        some (List.replicate 2 0) := by
  have h := C9_secureDelete.1 [("v".data, [7, 7])] ("v".data) [7, 7] (by decide)
  exact ⟨h.2.2.2.1, h.2.1⟩

/-- C10: `Executor.Run` returns a nil result exactly when the operation is
none of "plan", "apply", "destroy"; for those three it always returns a
non-nil result, error or not. -/
theorem C10_runNilResult (operation : String) (env : ExecEnv) :
    (runExec operation env).1 = none ↔
      (operation ≠ "plan" ∧ operation ≠ "apply" ∧ operation ≠ "destroy") := by
  unfold runExec
  by_cases h1 : operation = "plan"
  · simp [h1]
  · by_cases h2 : operation = "apply"
    · simp [h1, h2]
    · by_cases h3 : operation = "destroy"
      · simp [h1, h2, h3]
      · simp [h1, h2, h3]
